import Mathlib

/-!
Verification of the interval-checking core of the Filament timing-sensitive
HDL compiler. The development shallowly embeds:

* `src/core/fsm_idx.rs` — the symbolic max-of-sums time algebra `FsmIdxs`
  over a `LinkedHashMap<Id, u64>` (modelled as an insertion-ordered
  association list), its partial order, `unit` / `as_unit` / `insert` /
  `events` / `increment`, substitution (`resolve`), and the
  `Interval` / `Range` offset views;
* `src/ir_passes/discharge.rs` — the proof-obligation discharge pass:
  the `fact` callback, individual re-checking of obligations
  (`check_valid`), failure analysis and the end phase, with the SMT
  solver abstracted as a response oracle;
* `src/interval_checking/checker.rs` — obligation generation for
  connect commands and invocations.

Rust `panic!` / `todo!` / `unwrap` on `None` are modelled with
`Except` / `Option`; `u64` is modelled as `Nat` (the code never
subtracts).
-/

namespace Filament

/-- Interned identifiers (`core::Id`). Equality is all the code uses. -/
abbrev Id := String

/-! ## LinkedHashMap model

`linked_hash_map::LinkedHashMap<Id, u64>` is modelled as a list of
key–value pairs in iteration order (oldest first). `insert` on an
existing key replaces the value and moves the entry to the
most-recently-inserted position (the crate detaches and re-attaches the
node); on a fresh key it appends. `extend` folds `insert`. -/

/-- Lookup in iteration order (Rust `LinkedHashMap::get`). -/
def lhmGet (m : List (Id × Nat)) (k : Id) : Option Nat :=
  List.lookup k m

/-- Embeds `LinkedHashMap::insert`: replace any entry with key `k` and place the
new entry at the most-recent end of the iteration order. -/
def lhmInsert (m : List (Id × Nat)) (k : Id) (v : Nat) : List (Id × Nat) :=
  m.filter (fun p => p.1 ≠ k) ++ [(k, v)]

/-- Embeds `Extend::extend`: repeated `insert` of each pair of `xs` into `m`. -/
def lhmExtend (m xs : List (Id × Nat)) : List (Id × Nat) :=
  xs.foldl (fun acc p => lhmInsert acc p.1 p.2) m

/-- Embeds `FsmIdxs` (fsm_idx.rs): a max-of-sums time expression, a mapping from
event to nonnegative offset in insertion order. -/
structure FsmIdxs where
  fsms : List (Id × Nat)
deriving DecidableEq, Repr

namespace FsmIdxs

/-- Embeds `FsmIdxs::unit`: the expression with exactly one summand `name+state`. -/
def unit (name : Id) (state : Nat) : FsmIdxs :=
  ⟨[(name, state)]⟩

/-- Embeds `FsmIdxs::as_unit`: the single `(event, state)` pair when the
expression has exactly one summand. -/
def as_unit (x : FsmIdxs) : Option (Id × Nat) :=
  if x.fsms.length = 1 then x.fsms.head? else none

/-- Embeds `FsmIdxs::insert`: add the summand `name+state`. -/
def insert (x : FsmIdxs) (name : Id) (state : Nat) : FsmIdxs :=
  ⟨lhmInsert x.fsms name state⟩

/-- Embeds `FsmIdxs::events`: the events mentioned, in iteration order. -/
def events (x : FsmIdxs) : List Id :=
  x.fsms.map Prod.fst

/-- Embeds `FsmIdxs::increment`: shift every summand's offset by `n`. -/
def increment (x : FsmIdxs) (n : Nat) : FsmIdxs :=
  ⟨x.fsms.map (fun p => (p.1, p.2 + n))⟩

/-- The loop body of `PartialOrd::partial_cmp` for `FsmIdxs`: walk the
summands of `self` (first argument is the other side's map), threading
the current ordering; return `none` on a missing event or an
inconsistent comparison (the Rust early `return None`). -/
def partialCmpGo (other : List (Id × Nat)) :
    List (Id × Nat) → Option Ordering → Option Ordering
  | [], cur => cur
  | (ev, st1) :: rest, cur =>
    match lhmGet other ev with
    | some st2 =>
      match cur with
      | some ord =>
        if ord ≠ compare st1 st2 then none
        else partialCmpGo other rest (some ord)
      | none => partialCmpGo other rest (some (compare st1 st2))
    | none => none

/-- Embeds `FsmIdxs::partial_cmp`, exactly as written in fsm_idx.rs — including
the guard `self.fsms.len() != self.fsms.len()`, which compares `self`
with itself and therefore never fires. -/
def partial_cmp (a b : FsmIdxs) : Option Ordering :=
  if a.fsms.length ≠ a.fsms.length then none
  else partialCmpGo b.fsms a.fsms none

/-- The loop of `TimeRep::resolve` for `FsmIdxs`: replace each summand
`(name, state)` by `bindings[name].increment(state)` and union the
results into `out` with `extend`; a missing binding panics (`none`). -/
def resolveGo (bindings : Id → Option FsmIdxs) :
    List (Id × Nat) → List (Id × Nat) → Option (List (Id × Nat))
  | [], out => some out
  | (name, state) :: rest, out =>
    match bindings name with
    | some idxs => resolveGo bindings rest (lhmExtend out ((idxs.increment state).fsms))
    | none => none

/-- Embeds `TimeRep::resolve` for `FsmIdxs`. -/
def resolve (x : FsmIdxs) (bindings : Id → Option FsmIdxs) : Option FsmIdxs :=
  (resolveGo bindings x.fsms []).map FsmIdxs.mk

end FsmIdxs

/-- Modelled from the spec: the struct declaration of `core::Range` is
outside the given files; a range is an ordered pair of time expressions
(spec section 3). The Rust field `end` is a Lean keyword and is rendered
`stop`. -/
structure Range where
  start : FsmIdxs
  stop : FsmIdxs
deriving DecidableEq, Repr

/-- Modelled from the spec: the struct declaration of `core::Interval` is
outside the given files; an interval pairs an optional exact range with a
within range (spec section 3). -/
structure Interval where
  exact : Option Range
  within : Range
deriving DecidableEq, Repr

/-- Embeds `Range::as_offset`: the `(event, start, end)` view, defined when both
endpoints are unit expressions over the same event. -/
def Range.as_offset (r : Range) : Option (Id × Nat × Nat) :=
  r.start.as_unit.bind fun s =>
    r.stop.as_unit.bind fun e =>
      if s.1 = e.1 then some (s.1, s.2, e.2) else none

/-- Embeds `Interval::as_exact_offset`: `as_offset` of the exact range,
when present. -/
def Interval.as_exact_offset (i : Interval) : Option (Id × Nat × Nat) :=
  i.exact.bind Range.as_offset

/-! ## Helper lemmas on the LinkedHashMap model and the time algebra -/

/-- Keys of an association list are pairwise distinct — the
`LinkedHashMap` representation invariant. -/
def keysNodup (m : List (Id × Nat)) : Prop :=
  (m.map Prod.fst).Nodup

instance (m : List (Id × Nat)) : Decidable (keysNodup m) := by
  unfold keysNodup; infer_instance

theorem increment_zero (x : FsmIdxs) : x.increment 0 = x := by
  cases x with
  | mk fsms => simp [FsmIdxs.increment]

theorem increment_increment (x : FsmIdxs) (m n : Nat) :
    (x.increment m).increment n = x.increment (m + n) := by
  cases x with
  | mk fsms =>
    simp only [FsmIdxs.increment, List.map_map, FsmIdxs.mk.injEq]
    apply List.map_congr_left
    intro p _
    simp [Nat.add_assoc]

theorem lhmInsert_fresh (m : List (Id × Nat)) (k : Id) (v : Nat)
    (h : k ∉ m.map Prod.fst) : lhmInsert m k v = m ++ [(k, v)] := by
  unfold lhmInsert
  congr 1
  apply List.filter_eq_self.mpr
  intro p hp
  have : p.1 ≠ k := by
    intro hk
    exact h (hk ▸ List.mem_map_of_mem Prod.fst hp)
  simpa using this

theorem lhmExtend_fresh (xs : List (Id × Nat)) : ∀ m : List (Id × Nat),
    keysNodup xs → (∀ k ∈ xs.map Prod.fst, k ∉ m.map Prod.fst) →
    lhmExtend m xs = m ++ xs := by
  induction xs with
  | nil => intro m _ _; simp [lhmExtend]
  | cons p rest ih =>
    intro m hnd hdisj
    obtain ⟨k, v⟩ := p
    have hk : k ∉ m.map Prod.fst := hdisj k (by simp)
    have hstep : lhmExtend m ((k, v) :: rest) =
        lhmExtend (m ++ [(k, v)]) rest := by
      simp [lhmExtend, lhmInsert_fresh m k v hk]
    have hnd' : keysNodup rest := by
      have := hnd
      simp only [keysNodup, List.map_cons, List.nodup_cons] at this
      exact this.2
    have hkrest : k ∉ rest.map Prod.fst := by
      have := hnd
      simp only [keysNodup, List.map_cons, List.nodup_cons] at this
      exact this.1
    have hdisj' : ∀ a ∈ rest.map Prod.fst, a ∉ (m ++ [(k, v)]).map Prod.fst := by
      intro a ha
      simp only [List.map_append, List.mem_append, List.map_cons, List.map_nil,
        List.mem_singleton, not_or]
      refine ⟨hdisj a (by simp [ha]), ?_⟩
      intro hak
      exact hkrest (hak ▸ ha)
    rw [hstep, ih (m ++ [(k, v)]) hnd' hdisj', List.append_assoc]
    rfl

theorem lhmExtend_nil (xs : List (Id × Nat)) (h : keysNodup xs) :
    lhmExtend [] xs = xs := by
  have := lhmExtend_fresh xs [] h (by intro k _ hk; simp at hk)
  simpa using this

theorem as_unit_eq_unit (x : FsmIdxs) (e : Id) (s : Nat)
    (h : x.as_unit = some (e, s)) : x = FsmIdxs.unit e s := by
  cases x with
  | mk fsms =>
    cases fsms with
    | nil => simp [FsmIdxs.as_unit] at h
    | cons p rest =>
      cases rest with
      | nil =>
        simp [FsmIdxs.as_unit] at h
        simp [FsmIdxs.unit, h]
      | cons q rest' => simp [FsmIdxs.as_unit] at h

theorem keysNodup_lhmInsert (m : List (Id × Nat)) (k : Id) (v : Nat)
    (h : keysNodup m) : keysNodup (lhmInsert m k v) := by
  unfold keysNodup lhmInsert
  rw [List.map_append]
  apply List.Nodup.append
  · exact List.Nodup.sublist ((List.filter_sublist m).map Prod.fst) h
  · simp
  · intro a ha hb
    simp only [List.map_cons, List.map_nil, List.mem_singleton] at hb
    subst hb
    obtain ⟨p, hp, hpa⟩ := List.mem_map.mp ha
    have h2 := List.of_mem_filter hp
    simp only [decide_not, Bool.not_eq_true', decide_eq_false_iff_not] at h2
    exact h2 hpa

theorem keysNodup_lhmExtend (xs : List (Id × Nat)) : ∀ m : List (Id × Nat),
    keysNodup m → keysNodup (lhmExtend m xs) := by
  induction xs with
  | nil => intro m h; simpa [lhmExtend] using h
  | cons p rest ih =>
    intro m h
    have : lhmExtend m (p :: rest) = lhmExtend (lhmInsert m p.1 p.2) rest := rfl
    rw [this]
    exact ih _ (keysNodup_lhmInsert m p.1 p.2 h)

theorem lhmGet_lhmInsert (m : List (Id × Nat)) (k : Id) (v : Nat) :
    lhmGet (lhmInsert m k v) k = some v := by
  unfold lhmGet lhmInsert
  induction m with
  | nil => simp [List.lookup]
  | cons p rest ih =>
    obtain ⟨pk, pv⟩ := p
    by_cases hp : pk = k
    · simpa [List.filter_cons, hp] using ih
    · have hne : (k == pk) = false := beq_eq_false_iff_ne.mpr (fun h => hp h.symm)
      simp only [List.filter_cons]
      rw [if_pos (by simpa using hp)]
      simp only [List.cons_append, List.lookup_cons, hne]
      exact ih

theorem resolveGo_keysNodup (b : Id → Option FsmIdxs) (xs : List (Id × Nat)) :
    ∀ out r : List (Id × Nat), FsmIdxs.resolveGo b xs out = some r →
    keysNodup out → keysNodup r := by
  induction xs with
  | nil =>
    intro out r h hout
    simp only [FsmIdxs.resolveGo, Option.some.injEq] at h
    exact h ▸ hout
  | cons p rest ih =>
    intro out r h hout
    obtain ⟨k, v⟩ := p
    simp only [FsmIdxs.resolveGo] at h
    cases hb : b k with
    | none => rw [hb] at h; exact absurd h (by simp)
    | some idxs =>
      rw [hb] at h
      exact ih _ r h (keysNodup_lhmExtend _ _ hout)

theorem resolveGo_identity (b : Id → Option FsmIdxs) (xs : List (Id × Nat)) :
    ∀ out : List (Id × Nat), keysNodup xs →
    (∀ p ∈ xs, b p.1 = some (FsmIdxs.unit p.1 0)) →
    (∀ k ∈ xs.map Prod.fst, k ∉ out.map Prod.fst) →
    FsmIdxs.resolveGo b xs out = some (out ++ xs) := by
  induction xs with
  | nil => intro out _ _ _; simp [FsmIdxs.resolveGo]
  | cons p rest ih =>
    intro out hnd hb hdisj
    obtain ⟨k, v⟩ := p
    have hbk : b k = some (FsmIdxs.unit k 0) := hb (k, v) (by simp)
    have hunit : ((FsmIdxs.unit k 0).increment v).fsms = [(k, v)] := by
      simp [FsmIdxs.unit, FsmIdxs.increment]
    have hkout : k ∉ out.map Prod.fst := hdisj k (by simp)
    have hext : lhmExtend out [(k, v)] = out ++ [(k, v)] := by
      simp [lhmExtend, lhmInsert_fresh out k v hkout]
    have hnd' : keysNodup rest := by
      have := hnd
      simp only [keysNodup, List.map_cons, List.nodup_cons] at this
      exact this.2
    have hkrest : k ∉ rest.map Prod.fst := by
      have := hnd
      simp only [keysNodup, List.map_cons, List.nodup_cons] at this
      exact this.1
    have hdisj' : ∀ a ∈ rest.map Prod.fst, a ∉ (out ++ [(k, v)]).map Prod.fst := by
      intro a ha
      simp only [List.map_append, List.mem_append, List.map_cons, List.map_nil,
        List.mem_singleton, not_or]
      refine ⟨hdisj a (by simp [ha]), ?_⟩
      intro hak
      exact hkrest (hak ▸ ha)
    calc FsmIdxs.resolveGo b ((k, v) :: rest) out
        = FsmIdxs.resolveGo b rest (out ++ [(k, v)]) := by
          simp only [FsmIdxs.resolveGo, hbk, hunit, hext]
      _ = some ((out ++ [(k, v)]) ++ rest) :=
          ih (out ++ [(k, v)]) hnd' (fun p hp => hb p (by simp [hp])) hdisj'
      _ = some (out ++ (k, v) :: rest) := by rw [List.append_assoc]; rfl

/-! ## Claim theorems for the time algebra -/

/-- C8: for every `FsmIdxs` `x` and naturals `m`, `n`, incrementing by `0`
is the identity and increments compose additively:
`x.increment 0 = x` and `x.increment(m).increment(n) = x.increment(m+n)`. -/
theorem increment_unit_action (x : FsmIdxs) (m n : Nat) :
    x.increment 0 = x ∧ (x.increment m).increment n = x.increment (m + n) :=
  ⟨increment_zero x, increment_increment x m n⟩

/-- C9: resolving the unit expression `e+0` under a binding sending `e`
to `y` yields `y`, and resolving any `x` under the identity binding
(every event of `x` bound to its own unit at offset `0`) yields `x`
unchanged. The key-uniqueness hypotheses are the `LinkedHashMap`
representation invariant. -/
theorem resolve_unit_and_identity (e : Id) (y x : FsmIdxs)
    (b bId : Id → Option FsmIdxs)
    (hy : keysNodup y.fsms) (hb : b e = some y)
    (hx : keysNodup x.fsms)
    (hbId : ∀ p ∈ x.fsms, bId p.1 = some (FsmIdxs.unit p.1 0)) :
    (FsmIdxs.unit e 0).resolve b = some y ∧ x.resolve bId = some x := by
  constructor
  · have h0 : y.increment 0 = y := increment_zero y
    simp [FsmIdxs.resolve, FsmIdxs.unit, FsmIdxs.resolveGo, hb, h0,
      lhmExtend_nil y.fsms hy]
  · have := resolveGo_identity bId x.fsms [] hx hbId (by simp)
    simp [FsmIdxs.resolve, this]

/-- Witness for C9 at concrete inputs: `e = "E"`, `y = max(G+3, H+7)`,
`x = max(a+1, b+2)` with the identity binding. -/
theorem resolve_unit_and_identity_witness :
    (FsmIdxs.unit "E" 0).resolve (fun _ => some ⟨[("G", 3), ("H", 7)]⟩) =
      some ⟨[("G", 3), ("H", 7)]⟩ ∧
    FsmIdxs.resolve ⟨[("a", 1), ("b", 2)]⟩
      (fun n => some (FsmIdxs.unit n 0)) = some ⟨[("a", 1), ("b", 2)]⟩ :=
  resolve_unit_and_identity "E" ⟨[("G", 3), ("H", 7)]⟩ ⟨[("a", 1), ("b", 2)]⟩
    (fun _ => some ⟨[("G", 3), ("H", 7)]⟩) (fun n => some (FsmIdxs.unit n 0))
    (by decide) rfl (by decide) (fun p _ => rfl)

/-- C4 (counterexample): the claim that `resolve` preserves both
summands of a recurring event fails. With `x = max(a+0, b+0)` and the
binding `a ↦ E+5`, `b ↦ E+1`, the resolved expression is the single
summand `E+1` (the later insertion overwrote `E+5`), not the two-summand
expression `max(E+5, E+1)`. -/
theorem resolve_recurring_event_counterexample :
    FsmIdxs.resolve ⟨[("a", 0), ("b", 0)]⟩
      (fun e => if e = "a" then some (FsmIdxs.unit "E" 5)
        else if e = "b" then some (FsmIdxs.unit "E" 1) else none) =
      some ⟨[("E", 1)]⟩ ∧
    (⟨[("E", 1)]⟩ : FsmIdxs) ≠ ⟨[("E", 5), ("E", 1)]⟩ := by
  constructor
  · rfl
  · decide

/-- C4 (amended): a successful `resolve` keeps at most one summand per
event — `LinkedHashMap::insert` overwrites the previous offset for a
recurring key (the most recently inserted offset wins), so both summands
are never preserved at the algebraic level. -/
theorem resolve_keeps_one_summand_per_event (x : FsmIdxs)
    (b : Id → Option FsmIdxs) (r : FsmIdxs) (h : x.resolve b = some r) :
    keysNodup r.fsms ∧ ∀ m k v, lhmGet (lhmInsert m k v) k = some v := by
  constructor
  · simp only [FsmIdxs.resolve, Option.map_eq_some'] at h
    obtain ⟨l, hl, hr⟩ := h
    have := resolveGo_keysNodup b x.fsms [] l hl (by simp [keysNodup])
    rw [← hr]
    exact this
  · exact lhmGet_lhmInsert

/-- Witness for C4's amended theorem at the counterexample input. -/
theorem resolve_keeps_one_summand_per_event_witness :
    keysNodup (FsmIdxs.mk [("E", 1)]).fsms ∧
    ∀ m k v, lhmGet (lhmInsert m k v) k = some v :=
  resolve_keeps_one_summand_per_event ⟨[("a", 0), ("b", 0)]⟩
    (fun e => if e = "a" then some (FsmIdxs.unit "E" 5)
      else if e = "b" then some (FsmIdxs.unit "E" 1) else none)
    ⟨[("E", 1)]⟩ rfl

/-- C1 (code bug, evaluated at the failing input): the guard in
`FsmIdxs::partial_cmp` reads `self.fsms.len() != self.fsms.len()` —
comparing `self` with itself — so it never fires, and the event-by-event
loop only notices events of `self` missing from `other`. Hence for
`a = E+0` and `b = max(E+0, F+1)`, whose event sets differ,
`partial_cmp` returns `Some(Equal)` instead of `None` (the claim), even
though `a ≠ b` — also breaking the `PartialOrd`/`PartialEq` consistency
contract the derived `PartialEq` documents. -/
theorem partial_cmp_missing_event_bug :
    FsmIdxs.partial_cmp ⟨[("E", 0)]⟩ ⟨[("E", 0), ("F", 1)]⟩ =
      some Ordering.eq ∧
    FsmIdxs.events ⟨[("E", 0)]⟩ ≠ FsmIdxs.events ⟨[("E", 0), ("F", 1)]⟩ ∧
    (⟨[("E", 0)]⟩ : FsmIdxs) ≠ ⟨[("E", 0), ("F", 1)]⟩ := by
  refine ⟨rfl, by decide, by decide⟩

/-- C7: `as_exact_offset` returns `some (e, s, t)` iff the exact range is
present and both endpoints are unit expressions over the same event `e`
with offsets `s` and `t`; in that case the exact range equals the range
rebuilt from `(e, s, t)` with `unit`. -/
theorem as_exact_offset_spec (i : Interval) (e : Id) (s t : Nat) :
    (i.as_exact_offset = some (e, s, t) ↔
      ∃ r, i.exact = some r ∧ r.start.as_unit = some (e, s) ∧
        r.stop.as_unit = some (e, t)) ∧
    (i.as_exact_offset = some (e, s, t) →
      i.exact = some ⟨FsmIdxs.unit e s, FsmIdxs.unit e t⟩) := by
  have hiff : i.as_exact_offset = some (e, s, t) ↔
      ∃ r, i.exact = some r ∧ r.start.as_unit = some (e, s) ∧
        r.stop.as_unit = some (e, t) := by
    cases hex : i.exact with
    | none => simp [Interval.as_exact_offset, hex]
    | some r =>
      simp only [Interval.as_exact_offset, hex, Option.some_bind,
        Option.some.injEq]
      constructor
      · intro h
        refine ⟨r, rfl, ?_⟩
        unfold Range.as_offset at h
        cases hs : r.start.as_unit with
        | none => rw [hs] at h; simp at h
        | some sp =>
          cases he : r.stop.as_unit with
          | none => rw [hs, he] at h; simp at h
          | some ep =>
            rw [hs, he] at h
            simp only [Option.some_bind] at h
            by_cases heq : sp.1 = ep.1
            · rw [if_pos heq] at h
              simp only [Option.some.injEq, Prod.mk.injEq] at h
              obtain ⟨he1, hs1, ht1⟩ := h
              have hsp : sp = (e, s) := Prod.ext_iff.mpr ⟨he1, hs1⟩
              have hep : ep = (e, t) := Prod.ext_iff.mpr ⟨by rw [← heq]; exact he1, ht1⟩
              exact ⟨by rw [hsp], by rw [hep]⟩
            · rw [if_neg heq] at h; simp at h
      · rintro ⟨r', rfl, hs, he⟩
        unfold Range.as_offset
        rw [hs, he]
        simp
  refine ⟨hiff, fun h => ?_⟩
  obtain ⟨r, hr, hs, he⟩ := hiff.mp h
  have h1 : r.start = FsmIdxs.unit e s := as_unit_eq_unit r.start e s hs
  have h2 : r.stop = FsmIdxs.unit e t := as_unit_eq_unit r.stop e t he
  have hrw : r = ⟨FsmIdxs.unit e s, FsmIdxs.unit e t⟩ := by
    cases r with
    | mk a b =>
      simp only [Range.mk.injEq]
      exact ⟨h1, h2⟩
  rw [hr, hrw]

/-! ## The Discharge pass (ir_passes/discharge.rs)

The SMT solver process is an external collaborator reached over a
string channel; it is abstracted as a response oracle. The IR arena
types (`ir::Fact`, `ir::info::Assert`) are defined outside the given
files and are modelled from the spec. Diagnostics are abstracted to
what the pass puts into them: an anchor and the ordered list of notes
(`codespan`'s `with_notes` appends). -/

/-- Embeds `easy_smt::Response`: the three solver answers to a check. -/
inductive Response
  | Sat
  | Unsat
  | Unknown
deriving DecidableEq, Repr

/-- Modelled from the spec: the kind of an `ir::Fact` — after hoisting,
only asserts survive (spec section 3, Fact). -/
inductive FactKind
  | Assume
  | Assert
deriving DecidableEq, Repr

/-- Modelled from the spec: an `ir::Fact` is a proposition index with a
provenance info index and a kind (spec section 3). -/
structure Fact where
  prop : Nat
  reason : Nat
  kind : FactKind
deriving DecidableEq, Repr

/-- Embeds `ir::Fact::is_assume`. -/
def Fact.is_assume (f : Fact) : Bool :=
  match f.kind with
  | FactKind.Assume => true
  | FactKind.Assert => false

/-- Modelled from the spec: the info record a fact's `reason` resolves
to — an Assert info carrying a source position, or some other record
(spec section 4.4, diagnostic emission). -/
inductive Info
  | assertInfo (pos : Nat)
  | otherInfo
deriving DecidableEq, Repr

/-- Modelled from the spec: the read-only component operations
`check_valid` uses — printing a proposition, taking a proposition's
consequent, listing the parameters a proposition mentions, printing a
parameter, and resolving a reason index to its info record. -/
structure CompCtx where
  display : Nat → String
  consequent : Nat → Nat
  propParams : Nat → List Nat
  paramDisplay : Nat → String
  reasonOf : Nat → Info

/-- The solver session abstracted as an oracle: `bulkCheck` is the
answer to the end-phase check of the negated conjunction of all
obligations; `checkProp p` is the answer to `check-assuming` a fresh
activation literal implying the negation of `p` alone; `value p` is the
string the solver prints for parameter `p` in `get-value`. -/
structure Solver where
  bulkCheck : Response
  checkProp : Nat → Response
  value : Nat → String

/-- Embeds `Assign` (discharge.rs): parameter/value-string pairs
extracted from a model. -/
abbrev Assign := List (Nat × String)

/-- Embeds itertools `unique`: first occurrence of each element kept,
in order. -/
def uniqueFirst (xs : List Nat) : List Nat :=
  xs.foldl (fun acc b => if b ∈ acc then acc else acc ++ [b]) []

/-- Embeds `Discharge::get_assignments`: empty when there are no
relevant variables; otherwise each distinct parameter paired with its
printed model value. -/
def getAssignments (sol : Solver) (relevantVars : List Nat) : Assign :=
  if relevantVars.isEmpty then []
  else (uniqueFirst relevantVars).map (fun p => (p, sol.value p))

/-- Embeds `Assign::display`: join `param = value` with a comma,
skipping entries whose value parses to the integer `0`. -/
def Assign.display (ctx : CompCtx) (a : Assign) : String :=
  String.intercalate ", " (a.filterMap (fun kv =>
    match kv.2.toInt? with
    | some v => if v = 0 then none else some (ctx.paramDisplay kv.1 ++ " = " ++ kv.2)
    | none => some (ctx.paramDisplay kv.1 ++ " = " ++ kv.2)))

/-- A diagnostic abstracted to what the pass constructs: whether it is
anchored at the reason's source position (versus the sourceless
`Diagnostic::error()`), and its notes in order. -/
structure Diagnostic where
  anchored : Bool
  notes : List String
deriving DecidableEq, Repr

/-- The note `Cannot prove constraint: ⟨printed consequent⟩`. -/
def cannotProveNote (ctx : CompCtx) (prop : Nat) : String :=
  "Cannot prove constraint: " ++ ctx.display (ctx.consequent prop)

/-- The note `Counterexample: ⟨assignment⟩ (unmentioned parameters are 0)`. -/
def counterexampleNote (ctx : CompCtx) (assign : Assign) : String :=
  "Counterexample: " ++ Assign.display ctx assign ++ " (unmentioned parameters are 0)"

/-- The note used when a fact has no Assert reason info. -/
def noInfoNote : String :=
  "No information was given on who generated this error"

/-- The mutable state of the `Discharge` pass the claims observe:
`show_models`, the `checked` cache (`HashMap<PropIdx, Option<Assign>>`
as an association list in insertion order), the pending obligations,
the diagnostics buffer, and the error count. -/
structure DischargeSt where
  showModels : Bool
  checked : List (Nat × Option Assign)
  toProve : List Fact
  diagnostics : List Diagnostic
  errorCount : Nat

/-- First half of `Discharge::check_valid`: when `prop` is not in the
`checked` cache, run the individual check under a fresh activation
literal and cache the outcome — on `Sat` a `some` assignment (the model
restricted to the consequent's parameters when `show_models` is set,
empty otherwise), on `Unsat` a `None`, on `Unknown` a panic. -/
def checkFresh (sol : Solver) (ctx : CompCtx) (st : DischargeSt) (prop : Nat) :
    Except String (List (Nat × Option Assign)) :=
  match List.lookup prop st.checked with
  | some _ => .ok st.checked
  | none =>
    match sol.checkProp prop with
    | Response.Sat =>
      let out : Assign :=
        if st.showModels then getAssignments sol (ctx.propParams (ctx.consequent prop))
        else []
      .ok (st.checked ++ [(prop, some out)])
    | Response.Unsat => .ok (st.checked ++ [(prop, none)])
    | Response.Unknown => .error "Solver returned unknown"

/-- Second half of `Discharge::check_valid`: when the cached result for
the fact's proposition is a `some` assignment, push one diagnostic —
positioned with the notes of the Assert reason when one exists (the
cannot-prove note and, under `show_models` with a nonempty assignment,
the counterexample note; with `show_models` unset the positioned
diagnostic carries no notes), or the sourceless two-note error
otherwise. -/
def reportFact (ctx : CompCtx) (st : DischargeSt) (fact : Fact)
    (checked1 : List (Nat × Option Assign)) : DischargeSt :=
  match List.lookup fact.prop checked1 with
  | some (some assign) =>
    match ctx.reasonOf fact.reason with
    | Info.otherInfo =>
      { st with
        checked := checked1
        diagnostics := st.diagnostics ++
          [⟨false, [cannotProveNote ctx fact.prop, noInfoNote]⟩] }
    | Info.assertInfo _ =>
      let diag : Diagnostic :=
        if st.showModels then
          let withCannot : Diagnostic := ⟨true, [cannotProveNote ctx fact.prop]⟩
          if !assign.isEmpty then
            ⟨true, withCannot.notes ++ [counterexampleNote ctx assign]⟩
          else withCannot
        else ⟨true, []⟩
      { st with
        checked := checked1
        diagnostics := st.diagnostics ++ [diag] }
  | _ => { st with checked := checked1 }

/-- Embeds `Discharge::check_valid` as the composition of its two
halves. -/
def check_valid (sol : Solver) (ctx : CompCtx) (st : DischargeSt) (fact : Fact) :
    Except String DischargeSt :=
  (checkFresh sol ctx st fact.prop).map (reportFact ctx st fact)

/-- Embeds `Discharge::failing_props`: take the pending obligations and
re-check each one individually, in order. -/
def failing_props (sol : Solver) (ctx : CompCtx) (st : DischargeSt) :
    Except String DischargeSt :=
  List.foldlM (check_valid sol ctx) { st with toProve := [] } st.toProve

/-- Embeds `Visitor::fact` for `Discharge`: panic on a scoped fact,
panic on an assumption, otherwise defer the obligation. -/
def factCallback (scopedFlag : Bool) (st : DischargeSt) (f : Fact) :
    Except String DischargeSt :=
  if scopedFlag then
    .error "scoped facts not supported. Run hoist-facts before this pass"
  else if f.is_assume then
    .error "assumptions should have been eliminated by hoist-facts pass"
  else
    .ok { st with toProve := st.toProve ++ [f] }

/-- Embeds `Visitor::end` for `Discharge`: assert that the scope flag is
clear, return early with no solver traffic when nothing is pending,
otherwise check the negated conjunction once, run failure analysis only
on `Sat`, and then emit every buffered diagnostic, counting one error
each. -/
def endPhase (sol : Solver) (ctx : CompCtx) (scopedFlag : Bool) (st : DischargeSt) :
    Except String DischargeSt :=
  if scopedFlag then .error "unbalanced scopes"
  else if st.toProve.isEmpty then .ok st
  else
    let analysed : Except String DischargeSt :=
      if sol.bulkCheck = Response.Sat then failing_props sol ctx st else .ok st
    match analysed with
    | .error e => .error e
    | .ok st1 => .ok { st1 with errorCount := st1.errorCount + st1.diagnostics.length }

/-- Embeds `Visitor::after_traversal`: the error count when nonzero. -/
def after_traversal (st : DischargeSt) : Option Nat :=
  if st.errorCount > 0 then some st.errorCount else none

/-! ## Helper lemmas for the Discharge pass -/

theorem lookup_append_none {α β : Type} [BEq α] (k : α) (l l' : List (α × β))
    (h : List.lookup k l = none) : List.lookup k (l ++ l') = List.lookup k l' := by
  induction l with
  | nil => simp
  | cons p rest ih =>
    obtain ⟨a, b⟩ := p
    cases hk : k == a with
    | true => simp [List.lookup_cons, hk] at h
    | false =>
      simp only [List.lookup_cons, hk] at h
      simp only [List.cons_append, List.lookup_cons, hk]
      exact ih h

theorem lookup_isSome_append {α β : Type} [BEq α] {k : α} {l : List (α × β)}
    (l' : List (α × β)) (h : (List.lookup k l).isSome) :
    (List.lookup k (l ++ l')).isSome := by
  induction l with
  | nil => simp at h
  | cons p rest ih =>
    obtain ⟨a, b⟩ := p
    cases hk : k == a with
    | true => simp [List.lookup_cons, hk]
    | false =>
      simp only [List.lookup_cons, hk] at h
      simp only [List.cons_append, List.lookup_cons, hk]
      exact ih h

theorem mem_of_lookup_eq_some {α β : Type} [BEq α] [LawfulBEq α] {k : α} {v : β} :
    ∀ {l : List (α × β)}, List.lookup k l = some v → (k, v) ∈ l := by
  intro l
  induction l with
  | nil => intro h; simp at h
  | cons p rest ih =>
    intro h
    obtain ⟨a, b⟩ := p
    cases hk : k == a with
    | true =>
      simp only [List.lookup_cons, hk, Option.some.injEq] at h
      have : k = a := eq_of_beq hk
      simp [this, h]
    | false =>
      simp only [List.lookup_cons, hk] at h
      simp [ih h]

/-! ## Claim theorems for the Discharge pass: fact callback and
diagnostic notes -/

/-- C5: the fact callback panics when the pass is inside a scoped
construct, panics when the fact is an assumption, and otherwise only
appends the asserted fact to `to_prove` — every other component of the
pass state is untouched, so the fact is never discharged on the spot. -/
theorem fact_callback_spec (scopedFlag : Bool) (st : DischargeSt) (f : Fact) :
    (scopedFlag = true → factCallback scopedFlag st f =
      .error "scoped facts not supported. Run hoist-facts before this pass") ∧
    (f.kind = FactKind.Assume →
      ∃ msg, factCallback scopedFlag st f = .error msg) ∧
    (scopedFlag = false → f.kind = FactKind.Assert →
      factCallback scopedFlag st f = .ok { st with toProve := st.toProve ++ [f] }) := by
  refine ⟨?_, ?_, ?_⟩
  · intro h
    subst h
    rfl
  · intro h
    cases scopedFlag with
    | true => exact ⟨_, rfl⟩
    | false =>
      refine ⟨"assumptions should have been eliminated by hoist-facts pass", ?_⟩
      simp [factCallback, Fact.is_assume, h]
  · intro h hk
    subst h
    simp [factCallback, Fact.is_assume, hk]

/-- C2 (counterexample): with `show_models = false`, an obligation whose
individual re-check is sat and whose reason resolves to an Assert info
gets a positioned diagnostic with no notes at all — in particular the
`Cannot prove constraint` note the claim promises unconditionally is
absent (the code only attaches it under `show_models`). -/
theorem check_valid_note_counterexample :
    check_valid ⟨Response.Sat, fun _ => Response.Sat, fun _ => "4"⟩
      ⟨fun _ => "G0", fun p => p, fun _ => [], fun _ => "W",
        fun _ => Info.assertInfo 0⟩
      ⟨false, [], [], [], 0⟩ ⟨0, 0, FactKind.Assert⟩ =
      .ok ⟨false, [(0, some [])], [], [⟨true, []⟩], 0⟩ := by
  rfl

/-- C2 (amended): for a not-yet-cached obligation whose individual
re-check is sat and whose reason is an Assert info, a positioned
diagnostic is always emitted, but it carries the `Cannot prove
constraint` note iff `show_models` is true, and additionally the
`Counterexample` note iff `show_models` is true and the extracted
assignment is nonempty; with `show_models` false the diagnostic carries
no notes at all (so the `Counterexample` note is indeed absent). -/
theorem check_valid_notes (sol : Solver) (ctx : CompCtx) (st : DischargeSt)
    (f : Fact) (pos : Nat)
    (hfresh : List.lookup f.prop st.checked = none)
    (hsat : sol.checkProp f.prop = Response.Sat)
    (hreason : ctx.reasonOf f.reason = Info.assertInfo pos) :
    check_valid sol ctx st f = .ok { st with
      checked := st.checked ++ [(f.prop, some (if st.showModels then
        getAssignments sol (ctx.propParams (ctx.consequent f.prop)) else []))]
      diagnostics := st.diagnostics ++
        [if st.showModels then
          (if (getAssignments sol (ctx.propParams (ctx.consequent f.prop))).isEmpty then
            ⟨true, [cannotProveNote ctx f.prop]⟩
          else
            ⟨true, [cannotProveNote ctx f.prop, counterexampleNote ctx
              (getAssignments sol (ctx.propParams (ctx.consequent f.prop)))]⟩)
        else ⟨true, []⟩] } := by
  simp only [check_valid, checkFresh, hfresh, hsat, Except.map, reportFact]
  rw [lookup_append_none f.prop st.checked _ hfresh]
  simp only [List.lookup_cons, beq_self_eq_true, hreason]
  cases hm : st.showModels with
  | false => simp [hm]
  | true =>
    cases he : (getAssignments sol (ctx.propParams (ctx.consequent f.prop))).isEmpty with
    | true => simp [hm, he]
    | false => simp [hm, he]

/-- A concrete solver oracle used by witnesses: every check answers sat
and every parameter is valued `4`. -/
def witSol : Solver := ⟨Response.Sat, fun _ => Response.Sat, fun _ => "4"⟩

/-- A concrete component context used by witnesses: one constraint
printed `W >= 8` over the single parameter `1` displayed `W`, every
reason an Assert info at position `7`. -/
def witCtx : CompCtx :=
  ⟨fun _ => "W >= 8", fun p => p, fun _ => [1], fun _ => "W",
    fun _ => Info.assertInfo 7⟩

/-- A concrete pass state used by witnesses: models enabled, nothing
checked yet. -/
def witSt : DischargeSt := ⟨true, [], [], [], 0⟩

/-- A concrete assert-kind fact used by witnesses. -/
def witFact : Fact := ⟨0, 0, FactKind.Assert⟩

/-- Witness for C2's amended theorem: a parameter `W` valued `4` by the
model, `show_models` on, a fresh sat obligation with an Assert reason. -/
theorem check_valid_notes_witness :
    check_valid witSol witCtx witSt witFact = .ok { witSt with
      checked := witSt.checked ++ [(witFact.prop, some (if witSt.showModels then
        getAssignments witSol (witCtx.propParams (witCtx.consequent witFact.prop)) else []))]
      diagnostics := witSt.diagnostics ++
        [if witSt.showModels then
          (if (getAssignments witSol (witCtx.propParams (witCtx.consequent witFact.prop))).isEmpty then
            ⟨true, [cannotProveNote witCtx witFact.prop]⟩
          else
            ⟨true, [cannotProveNote witCtx witFact.prop, counterexampleNote witCtx
              (getAssignments witSol (witCtx.propParams (witCtx.consequent witFact.prop)))]⟩)
        else ⟨true, []⟩] } :=
  check_valid_notes witSol witCtx witSt witFact 7 rfl rfl rfl

/-! ## Lemmas about failure analysis, toward the end-phase claim -/

theorem checkFresh_ok (sol : Solver) (ctx : CompCtx) (st : DischargeSt)
    (prop : Nat) (h : sol.checkProp prop ≠ Response.Unknown) :
    ∃ tail, checkFresh sol ctx st prop = .ok (st.checked ++ tail) ∧
      (List.lookup prop (st.checked ++ tail)).isSome := by
  unfold checkFresh
  cases hl : List.lookup prop st.checked with
  | some v =>
    refine ⟨[], ?_, ?_⟩
    · simp
    · simp [hl]
  | none =>
    cases hc : sol.checkProp prop with
    | Sat =>
      refine ⟨[(prop, some (if st.showModels then
        getAssignments sol (ctx.propParams (ctx.consequent prop)) else []))], rfl, ?_⟩
      rw [lookup_append_none prop st.checked _ hl]
      simp [List.lookup_cons]
    | Unsat =>
      refine ⟨[(prop, none)], rfl, ?_⟩
      rw [lookup_append_none prop st.checked _ hl]
      simp [List.lookup_cons]
    | Unknown => exact absurd hc h

theorem reportFact_fields (ctx : CompCtx) (st : DischargeSt) (fact : Fact)
    (checked1 : List (Nat × Option Assign)) :
    (reportFact ctx st fact checked1).checked = checked1 ∧
    (reportFact ctx st fact checked1).toProve = st.toProve ∧
    (reportFact ctx st fact checked1).errorCount = st.errorCount ∧
    ∃ ds, (reportFact ctx st fact checked1).diagnostics = st.diagnostics ++ ds := by
  unfold reportFact
  cases List.lookup fact.prop checked1 with
  | none => exact ⟨rfl, rfl, rfl, [], by simp⟩
  | some v =>
    cases v with
    | none => exact ⟨rfl, rfl, rfl, [], by simp⟩
    | some assign =>
      cases ctx.reasonOf fact.reason with
      | otherInfo => exact ⟨rfl, rfl, rfl, _, rfl⟩
      | assertInfo pos => exact ⟨rfl, rfl, rfl, _, rfl⟩

theorem check_valid_ok (sol : Solver) (ctx : CompCtx) (st : DischargeSt)
    (f : Fact) (h : sol.checkProp f.prop ≠ Response.Unknown) :
    ∃ st', check_valid sol ctx st f = .ok st' ∧
      (∃ tail, st'.checked = st.checked ++ tail) ∧
      (List.lookup f.prop st'.checked).isSome ∧
      st'.toProve = st.toProve ∧ st'.errorCount = st.errorCount := by
  obtain ⟨tail, hok, hsome⟩ := checkFresh_ok sol ctx st f.prop h
  obtain ⟨hc, ht, he, _, _⟩ := reportFact_fields ctx st f (st.checked ++ tail)
  refine ⟨reportFact ctx st f (st.checked ++ tail), ?_, ⟨tail, hc⟩, ?_, ht, he⟩
  · unfold check_valid
    rw [hok]
    rfl
  · rw [hc]
    exact hsome

theorem foldlM_check_valid_ok (sol : Solver) (ctx : CompCtx) (fs : List Fact) :
    ∀ s : DischargeSt, (∀ f ∈ fs, sol.checkProp f.prop ≠ Response.Unknown) →
    ∃ s', List.foldlM (check_valid sol ctx) s fs = .ok s' ∧
      (∃ tail, s'.checked = s.checked ++ tail) ∧
      (∀ f ∈ fs, (List.lookup f.prop s'.checked).isSome) ∧
      s'.toProve = s.toProve ∧ s'.errorCount = s.errorCount := by
  induction fs with
  | nil =>
    intro s _
    exact ⟨s, rfl, ⟨[], by simp⟩, by simp, rfl, rfl⟩
  | cons f rest ih =>
    intro s h
    obtain ⟨s1, h1, ⟨t1, ht1⟩, hsome1, htp1, herr1⟩ :=
      check_valid_ok sol ctx s f (h f (by simp))
    obtain ⟨s', h2, ⟨t2, ht2⟩, hsome2, htp2, herr2⟩ :=
      ih s1 (fun g hg => h g (by simp [hg]))
    refine ⟨s', ?_, ⟨t1 ++ t2, by rw [ht2, ht1, List.append_assoc]⟩, ?_,
      by rw [htp2, htp1], by rw [herr2, herr1]⟩
    · rw [List.foldlM_cons, h1]
      simpa using h2
    · intro g hg
      rcases List.mem_cons.mp hg with rfl | hg'
      · rw [ht2]
        exact lookup_isSome_append t2 hsome1
      · exact hsome2 g hg'

/-- Every cached result is a `None` — the invariant of failure analysis
when every individual re-check answers unsat. -/
def allNone (c : List (Nat × Option Assign)) : Prop :=
  ∀ p ∈ c, p.2 = none

theorem check_valid_unsat_step (sol : Solver) (ctx : CompCtx)
    (st : DischargeSt) (f : Fact)
    (hc : sol.checkProp f.prop = Response.Unsat) (hall : allNone st.checked) :
    ∃ c1, check_valid sol ctx st f = .ok { st with checked := c1 } ∧ allNone c1 := by
  unfold check_valid checkFresh
  cases hl : List.lookup f.prop st.checked with
  | some v =>
    have hv : v = none := hall (f.prop, v) (mem_of_lookup_eq_some hl)
    subst hv
    refine ⟨st.checked, ?_, hall⟩
    simp only [Except.map]
    unfold reportFact
    rw [hl]
  | none =>
    refine ⟨st.checked ++ [(f.prop, none)], ?_, ?_⟩
    · rw [hc]
      simp only [Except.map]
      unfold reportFact
      rw [lookup_append_none f.prop st.checked _ hl]
      simp [List.lookup_cons]
    · intro p hp
      rcases List.mem_append.mp hp with hp' | hp'
      · exact hall p hp'
      · simp only [List.mem_singleton] at hp'
        simp [hp']

theorem foldlM_unsat_nodiag (sol : Solver) (ctx : CompCtx) (fs : List Fact) :
    ∀ s : DischargeSt, (∀ f ∈ fs, sol.checkProp f.prop = Response.Unsat) →
    allNone s.checked →
    ∃ s', List.foldlM (check_valid sol ctx) s fs = .ok s' ∧
      s'.diagnostics = s.diagnostics ∧ s'.errorCount = s.errorCount := by
  induction fs with
  | nil =>
    intro s _ _
    exact ⟨s, rfl, rfl, rfl⟩
  | cons f rest ih =>
    intro s h hall
    obtain ⟨c1, h1, hall1⟩ := check_valid_unsat_step sol ctx s f (h f (by simp)) hall
    obtain ⟨s', h2, hd2, he2⟩ := ih { s with checked := c1 }
      (fun g hg => h g (by simp [hg])) hall1
    refine ⟨s', ?_, hd2, he2⟩
    rw [List.foldlM_cons, h1]
    simpa using h2

/-- C3: in the end phase (with the scope flag clear, an empty
diagnostics buffer, a zero error count and an empty cache, as
`clear_data`/`start` leave them), when the single bulk check of the
negated conjunction answers unsat the pass emits no diagnostic and
`after_traversal` reports success (`none`); when it answers sat, every
pending obligation is re-checked individually (each proposition lands in
the `checked` cache), and if each individual check answers unsat no
diagnostic at all is emitted and `after_traversal` still reports
success. -/
theorem end_phase_spec (sol : Solver) (ctx : CompCtx) (st : DischargeSt)
    (hdiag : st.diagnostics = []) (herr : st.errorCount = 0)
    (hchk : st.checked = [])
    (hki : ∀ f ∈ st.toProve, sol.checkProp f.prop ≠ Response.Unknown) :
    (sol.bulkCheck = Response.Unsat →
      endPhase sol ctx false st = .ok st ∧ after_traversal st = none) ∧
    (sol.bulkCheck = Response.Sat →
      ∃ st', endPhase sol ctx false st = .ok st' ∧
        (∀ f ∈ st.toProve, (List.lookup f.prop st'.checked).isSome) ∧
        ((∀ f ∈ st.toProve, sol.checkProp f.prop = Response.Unsat) →
          st'.diagnostics = [] ∧ after_traversal st' = none)) ∧
    (∀ s : DischargeSt, ∀ f : Fact, List.lookup f.prop s.checked = none →
      sol.checkProp f.prop = Response.Unsat →
      check_valid sol ctx s f = .ok { s with checked := s.checked ++ [(f.prop, none)] }) := by
  have hstep : ∀ s : DischargeSt, ∀ f : Fact, List.lookup f.prop s.checked = none →
      sol.checkProp f.prop = Response.Unsat →
      check_valid sol ctx s f = .ok { s with checked := s.checked ++ [(f.prop, none)] } := by
    intro s f hl hc
    unfold check_valid checkFresh
    rw [hl, hc]
    simp only [Except.map]
    unfold reportFact
    rw [lookup_append_none f.prop s.checked _ hl]
    simp [List.lookup_cons]
  obtain ⟨sm, chk, tp, dg, ec⟩ := st
  simp only at hdiag herr hchk hki
  subst hdiag herr hchk
  refine ⟨?_, ?_, hstep⟩
  · intro hb
    cases htp : tp.isEmpty with
    | true =>
      rw [List.isEmpty_iff] at htp
      subst htp
      exact ⟨rfl, rfl⟩
    | false =>
      constructor
      · unfold endPhase
        rw [if_neg (by simp), htp, hb]
        simp
      · rfl
  · intro hb
    cases htp : tp.isEmpty with
    | true =>
      rw [List.isEmpty_iff] at htp
      subst htp
      exact ⟨⟨sm, [], [], [], 0⟩, rfl, by simp, fun _ => ⟨rfl, rfl⟩⟩
    | false =>
      obtain ⟨s1, h1, ⟨t1, ht1⟩, hsome1, htp1, herr1⟩ :=
        foldlM_check_valid_ok sol ctx tp ⟨sm, [], [], [], 0⟩ hki
      refine ⟨{ s1 with errorCount := s1.errorCount + s1.diagnostics.length },
        ?_, ?_, ?_⟩
      · unfold endPhase
        rw [if_neg (by simp), htp, hb]
        simp only [if_pos rfl, failing_props]
        rw [h1]
        simp
      · intro f hf
        exact hsome1 f hf
      · intro hun
        obtain ⟨s2, h2, hd2, he2⟩ := foldlM_unsat_nodiag sol ctx tp
          ⟨sm, [], [], [], 0⟩ hun (by intro p hp; simp at hp)
        have hs12 : s1 = s2 := by
          rw [h1] at h2
          exact (Except.ok.injEq _ _).mp h2
        subst hs12
        constructor
        · simpa using hd2
        · simp [after_traversal, hd2, he2]

/-- Witness for C3 at a concrete end-phase state: one pending
assert-kind obligation, a solver whose bulk check answers sat and whose
individual checks answer unsat. -/
theorem end_phase_spec_witness :
    ((⟨Response.Sat, fun _ => Response.Unsat, fun _ => "4"⟩ : Solver).bulkCheck =
        Response.Unsat →
      endPhase ⟨Response.Sat, fun _ => Response.Unsat, fun _ => "4"⟩ witCtx false
          ⟨true, [], [witFact], [], 0⟩ =
        .ok ⟨true, [], [witFact], [], 0⟩ ∧
      after_traversal ⟨true, [], [witFact], [], 0⟩ = none) ∧
    ((⟨Response.Sat, fun _ => Response.Unsat, fun _ => "4"⟩ : Solver).bulkCheck =
        Response.Sat →
      ∃ st', endPhase ⟨Response.Sat, fun _ => Response.Unsat, fun _ => "4"⟩ witCtx
          false ⟨true, [], [witFact], [], 0⟩ = .ok st' ∧
        (∀ f ∈ (⟨true, [], [witFact], [], 0⟩ : DischargeSt).toProve,
          (List.lookup f.prop st'.checked).isSome) ∧
        ((∀ f ∈ (⟨true, [], [witFact], [], 0⟩ : DischargeSt).toProve,
            (⟨Response.Sat, fun _ => Response.Unsat, fun _ => "4"⟩ : Solver).checkProp
              f.prop = Response.Unsat) →
          st'.diagnostics = [] ∧ after_traversal st' = none)) ∧
    (∀ s : DischargeSt, ∀ f : Fact, List.lookup f.prop s.checked = none →
      (⟨Response.Sat, fun _ => Response.Unsat, fun _ => "4"⟩ : Solver).checkProp
        f.prop = Response.Unsat →
      check_valid ⟨Response.Sat, fun _ => Response.Unsat, fun _ => "4"⟩ witCtx s f =
        .ok { s with checked := s.checked ++ [(f.prop, none)] }) :=
  end_phase_spec ⟨Response.Sat, fun _ => Response.Unsat, fun _ => "4"⟩ witCtx
    ⟨true, [], [witFact], [], 0⟩ rfl rfl rfl (fun _ _ h => Response.noConfusion h)

/-! ## Connection and invocation checking (interval_checking/checker.rs) -/

/-- Embeds `core::Port`: a bare port of the enclosing component, a port
of a sub-component invocation, or a constant. -/
inductive Port
  | thisPort (name : Id)
  | compPort (comp : Id) (name : Id)
  | constant (n : Nat)
deriving DecidableEq, Repr

/-- Embeds `core::Connect`: a connection `dst = src`. -/
structure Connect where
  dst : Port
  src : Port
deriving DecidableEq, Repr

/-- Whether the port is a constant. -/
def Port.isConstant : Port → Bool
  | Port.constant _ => true
  | _ => false

/-- Errors of the checker: `recoverable` stands for a `FilamentResult`
error (unknown instance or port), `fatal` for a `todo!`/`panic!`. -/
inductive CheckErr
  | recoverable (msg : String)
  | fatal (msg : String)
deriving DecidableEq, Repr

/-- Modelled from the spec: the obligations the checker adds to its
context — interval-subset facts `requirement ⊆ guarantee` (the
`Fact::subset` constructor lives outside the given files). -/
inductive CFact
  | subset (req : Interval) (guar : Interval)
deriving DecidableEq, Repr

/-- Modelled from the spec: the checker `Context` lookups used by
`check_connect` and `check_invocation` — `get_invoke(..)` followed by
`port_requirements` / `port_guarantees`, collapsed into one fallible
lookup per port (`none` is the recoverable error of either step). -/
structure CheckerCtx where
  portRequirements : Port → Option Interval
  portGuarantees : Port → Option Interval

/-- Modelled from the spec: `Range` resolution substitutes the binding
into both endpoints (the generic `resolve` of the time representation,
outside the given files). -/
def Range.resolve (r : Range) (b : Id → Option FsmIdxs) : Option Range :=
  (r.start.resolve b).bind fun s =>
    (r.stop.resolve b).map fun e => ⟨s, e⟩

/-- Modelled from the spec: `Interval` resolution resolves the exact
range when present and the within range (outside the given files). -/
def Interval.resolve (i : Interval) (b : Id → Option FsmIdxs) : Option Interval :=
  match i.exact with
  | some r => (r.resolve b).bind fun re =>
      (i.within.resolve b).map fun w => ⟨some re, w⟩
  | none => (i.within.resolve b).map fun w => ⟨none, w⟩

/-- Embeds `check_connect` (checker.rs): look up the requirement of the
destination (a constant destination hits `todo!`), then the guarantee of
the source (a constant source yields no guarantee and hence no
obligation), and append the single subset obligation otherwise. -/
def check_connect (ctx : CheckerCtx) (con : Connect) (obls : List CFact) :
    Except CheckErr (List CFact) :=
  let requirement : Except CheckErr Interval :=
    match con.dst with
    | Port.thisPort name =>
      match ctx.portRequirements (Port.thisPort name) with
      | some i => .ok i
      | none => .error (.recoverable "cannot resolve requirement of destination")
    | Port.compPort comp name =>
      match ctx.portRequirements (Port.compPort comp name) with
      | some i => .ok i
      | none => .error (.recoverable "cannot resolve requirement of destination")
    | Port.constant _ => .error (.fatal "destination port cannot be a constant")
  match requirement with
  | .error e => .error e
  | .ok req =>
    let maybeGuarantee : Except CheckErr (Option Interval) :=
      match con.src with
      | Port.constant _ => .ok none
      | Port.thisPort port =>
        match ctx.portGuarantees (Port.thisPort port) with
        | some i => .ok (some i)
        | none => .error (.recoverable "cannot resolve guarantee of source")
      | Port.compPort comp name =>
        match ctx.portGuarantees (Port.compPort comp name) with
        | some i => .ok (some i)
        | none => .error (.recoverable "cannot resolve guarantee of source")
    match maybeGuarantee with
    | .error e => .error e
    | .ok (some guarantee) => .ok (obls ++ [CFact.subset req guarantee])
    | .ok none => .ok obls

/-- Embeds one iteration of the input-port loop of `check_invocation`:
resolve the formal's liveness under the abstract-variable binding (a
missing binding panics), then match the actual — a constant generates no
obligation, otherwise the guarantee lookup feeds one subset
obligation. -/
def invoke_port_step (ctx : CheckerCtx) (b : Id → Option FsmIdxs)
    (obls : List CFact) (pair : Port × Interval) : Except CheckErr (List CFact) :=
  match pair.2.resolve b with
  | none => .error (.fatal "No binding for event")
  | some requirement =>
    match pair.1 with
    | Port.constant _ => .ok obls
    | Port.thisPort port =>
      match ctx.portGuarantees (Port.thisPort port) with
      | some g => .ok (obls ++ [CFact.subset requirement g])
      | none => .error (.recoverable "cannot resolve guarantee of actual")
    | Port.compPort comp name =>
      match ctx.portGuarantees (Port.compPort comp name) with
      | some g => .ok (obls ++ [CFact.subset requirement g])
      | none => .error (.recoverable "cannot resolve guarantee of actual")

/-- Embeds the input-port loop of `check_invocation`: `invoke.ports`
zipped with the signature's inputs, processed in order with early
return on error. -/
def check_invocation_ports (ctx : CheckerCtx) (b : Id → Option FsmIdxs)
    (pairs : List (Port × Interval)) (obls : List CFact) :
    Except CheckErr (List CFact) :=
  List.foldlM (invoke_port_step ctx b) obls pairs

/-- C6: for a connect `dst ← src` with resolvable non-constant
destination, a constant source adds no obligation, and a non-constant
source with a resolvable guarantee adds exactly the one subset
obligation `requirement(dst) ⊆ guarantee(src)`; likewise, in an
invocation's input-port pairing whose formal liveness resolves under the
binding, a constant actual adds no obligation and a non-constant actual
with a resolvable guarantee adds exactly the one obligation
`resolved liveness ⊆ guarantee(actual)`. -/
theorem obligation_generation (ctx : CheckerCtx) (b : Id → Option FsmIdxs)
    (dst src actual : Port) (obls : List CFact) (req g lv : Interval) :
    (dst.isConstant = false → src.isConstant = true →
      ctx.portRequirements dst = some req →
      check_connect ctx ⟨dst, src⟩ obls = .ok obls) ∧
    (dst.isConstant = false → src.isConstant = false →
      ctx.portRequirements dst = some req → ctx.portGuarantees src = some g →
      check_connect ctx ⟨dst, src⟩ obls = .ok (obls ++ [CFact.subset req g])) ∧
    (lv.resolve b = some req →
      (actual.isConstant = true →
        invoke_port_step ctx b obls (actual, lv) = .ok obls) ∧
      (actual.isConstant = false → ctx.portGuarantees actual = some g →
        invoke_port_step ctx b obls (actual, lv) =
          .ok (obls ++ [CFact.subset req g]))) := by
  refine ⟨?_, ?_, ?_⟩
  · intro hd hs hr
    cases dst <;> simp [Port.isConstant] at hd <;>
      cases src <;> simp [Port.isConstant] at hs <;>
      simp [check_connect, hr]
  · intro hd hs hr hg
    cases dst <;> simp [Port.isConstant] at hd <;>
      cases src <;> simp [Port.isConstant] at hs <;>
      simp [check_connect, hr, hg]
  · intro hlv
    constructor
    · intro ha
      cases actual <;> simp [Port.isConstant] at ha
      simp [invoke_port_step, hlv]
    · intro ha hg
      cases actual <;> simp [Port.isConstant] at ha <;>
        simp [invoke_port_step, hlv, hg]

/-- C10: a constant connect destination hits the `todo!` before any
lookup — for every context, source and obligation list the result is
the fatal abort (so no obligation is added and no recoverable error is
returned); and whenever the destination is not a constant, the fatal
branch is unreachable: `check_connect` never returns a fatal error. -/
theorem connect_constant_dst_fatal (ctx : CheckerCtx) (con : Connect)
    (obls : List CFact) :
    (∀ n, con.dst = Port.constant n →
      check_connect ctx con obls =
        .error (.fatal "destination port cannot be a constant")) ∧
    ((∀ n, con.dst ≠ Port.constant n) →
      ∀ msg, check_connect ctx con obls ≠ .error (.fatal msg)) := by
  obtain ⟨dst, src⟩ := con
  constructor
  · intro n hn
    simp only at hn
    subst hn
    cases src <;> rfl
  · intro hnc msg
    simp only at hnc
    cases dst with
    | constant n => exact absurd rfl (hnc n)
    | thisPort name =>
      cases hr : ctx.portRequirements (Port.thisPort name) with
      | none => simp [check_connect, hr]
      | some req =>
        cases src with
        | constant m => simp [check_connect, hr]
        | thisPort p =>
          cases hg : ctx.portGuarantees (Port.thisPort p) with
          | none => simp [check_connect, hr, hg]
          | some g => simp [check_connect, hr, hg]
        | compPort c p =>
          cases hg : ctx.portGuarantees (Port.compPort c p) with
          | none => simp [check_connect, hr, hg]
          | some g => simp [check_connect, hr, hg]
    | compPort c name =>
      cases hr : ctx.portRequirements (Port.compPort c name) with
      | none => simp [check_connect, hr]
      | some req =>
        cases src with
        | constant m => simp [check_connect, hr]
        | thisPort p =>
          cases hg : ctx.portGuarantees (Port.thisPort p) with
          | none => simp [check_connect, hr, hg]
          | some g => simp [check_connect, hr, hg]
        | compPort c' p =>
          cases hg : ctx.portGuarantees (Port.compPort c' p) with
          | none => simp [check_connect, hr, hg]
          | some g => simp [check_connect, hr, hg]

/-- Witness for C10 at a concrete connect: the destination is the
constant `3`, the source a bare port; the environment grants every
lookup. -/
theorem connect_constant_dst_fatal_witness :
    (∀ n, (⟨Port.constant 3, Port.thisPort "i"⟩ : Connect).dst = Port.constant n →
      check_connect ⟨fun _ => some ⟨none, ⟨.unit "E" 0, .unit "E" 1⟩⟩,
        fun _ => some ⟨none, ⟨.unit "E" 0, .unit "E" 1⟩⟩⟩
        ⟨Port.constant 3, Port.thisPort "i"⟩ [] =
        .error (.fatal "destination port cannot be a constant")) ∧
    ((∀ n, (⟨Port.constant 3, Port.thisPort "i"⟩ : Connect).dst ≠ Port.constant n) →
      ∀ msg, check_connect ⟨fun _ => some ⟨none, ⟨.unit "E" 0, .unit "E" 1⟩⟩,
        fun _ => some ⟨none, ⟨.unit "E" 0, .unit "E" 1⟩⟩⟩
        ⟨Port.constant 3, Port.thisPort "i"⟩ [] ≠ .error (.fatal msg)) :=
  connect_constant_dst_fatal
    ⟨fun _ => some ⟨none, ⟨.unit "E" 0, .unit "E" 1⟩⟩,
      fun _ => some ⟨none, ⟨.unit "E" 0, .unit "E" 1⟩⟩⟩
    ⟨Port.constant 3, Port.thisPort "i"⟩ []

end Filament
